import Mathlib

/-!
Verification development for the segmented DAG engine of the eden repository
and its test harness (eden/scm/lib/dag).

The shown source region contains the test harness (tests/test_dag.rs); the
engine itself (NameDag: add_heads, flush, clone/pull exchange, remote
resolution) is exercised by that harness but its code is not part of the
shown region, so the engine is modelled here from the specification's
description of its data model and operations.  Definitions taken directly
from tests/test_dag.rs (ProtocolMonitor, TestDag::output,
get_heads_and_parents_func_from_ascii) say so in their doc comments.
-/

/-- A vertex is an opaque byte sequence (a commit name).  Rust uses a boxed
byte slice; names produced by the ASCII test graphs are UTF-8 strings, whose
byte-wise lexicographic order coincides with the codepoint-wise order used
below. -/
abbrev Vertex := String

/-- Byte-wise lexicographic comparison on character lists (by codepoint). -/
def byteSeqLe : List Char → List Char → Bool
  | [], _ => true
  | _ :: _, [] => false
  | a :: as, b :: bs =>
    if a.toNat < b.toNat then true
    else if b.toNat < a.toNat then false
    else byteSeqLe as bs

/-- Ascending byte order on vertexes, matching the derived Ord on the Rust
byte-slice vertex type restricted to UTF-8 strings. -/
def vertexLe (a b : Vertex) : Bool := byteSeqLe a.data b.data

/-- Modelled from the spec: the in-memory state of one engine instance, namely
the Vertex to Id bijection (an insertion-ordered association list), the level-0
parent-edge records keyed by id, the next free id, and the set of ids currently
in the master group.  The engine code (NameDag and its IdMap) is not part of
the shown source region. -/
structure DagState where
  idmap : List (Vertex × Nat)
  edges : List (Nat × List Nat)
  nextId : Nat
  master : List Nat
deriving DecidableEq, Repr

def DagState.empty : DagState := ⟨[], [], 0, []⟩

/-- Does the local bijection know this vertex? -/
def DagState.hasVertex (st : DagState) (v : Vertex) : Bool :=
  st.idmap.any (fun p => p.1 = v)

/-- Local vertex-to-id lookup (no remote resolution). -/
def DagState.vertexId (st : DagState) (v : Vertex) : Option Nat :=
  (st.idmap.find? (fun p => p.1 = v)).map Prod.snd

/-- Local id-to-vertex lookup (no remote resolution). -/
def DagState.vertexName (st : DagState) (i : Nat) : Option Vertex :=
  (st.idmap.find? (fun p => p.2 = i)).map Prod.fst

/-- Assign the next free id to a new vertex and record its parent ids as a
level-0 edge record. -/
def DagState.insertNew (st : DagState) (v : Vertex) (pids : List Nat) : DagState :=
  { st with
    idmap := st.idmap ++ [(v, st.nextId)]
    edges := st.edges ++ [(st.nextId, pids)]
    nextId := st.nextId + 1 }

/-- Modelled from the spec: the backward walk of add_heads.  It assigns new
ids to any vertex not already known, parents before children, and detects
cycles (a vertex that reappears while its own ancestry is being assigned)
as a failure.  Structural recursion on a fuel bound stands in for the
well-foundedness of the parent function; exhausted fuel is reported as the
same failure as a cycle. -/
def assignVertex (ps : Vertex → List Vertex) : Nat → DagState → Vertex → Option DagState
  | 0, st, v => if st.hasVertex v then some st else none
  | fuel + 1, st, v =>
    if st.hasVertex v then some st
    else
      match (ps v).foldlM (fun s p => assignVertex ps fuel s p) st with
      | none => none
      | some s =>
        if s.hasVertex v then none
        else some (s.insertNew v ((ps v).filterMap s.vertexId))

/-- Modelled from the spec: add_heads walks backward from each head in turn,
assigning ids to unknown vertexes in an order that respects parents before
children. -/
def addHeads (ps : Vertex → List Vertex) (fuel : Nat) (heads : List Vertex)
    (st : DagState) : Option DagState :=
  heads.foldlM (fun s h => assignVertex ps fuel s h) st

/-- Parent ids of an id, read from the level-0 edge records. -/
def parentIdsOf (st : DagState) (i : Nat) : List Nat :=
  ((st.edges.find? (fun e => e.1 == i)).map Prod.snd).getD []

/-- Ancestor ids of an id (inclusive), collected by a fuel-bounded walk of the
parent edges. -/
def DagState.ancestorIds (st : DagState) : Nat → Nat → List Nat
  | 0, i => [i]
  | fuel + 1, i => i :: ((parentIdsOf st i).map (st.ancestorIds fuel)).flatten

/-- Modelled from the spec: flush re-labels the ids of the given master heads
and their ancestry into the master group; the bijection and the edge records
are not touched. -/
def DagState.flushState (st : DagState) (masterHeads : List Vertex) : DagState :=
  let headIds := masterHeads.filterMap st.vertexId
  let anc := (headIds.map (st.ancestorIds st.nextId)).flatten
  { st with master := st.master ++ anc.filter (fun i => !st.master.contains i) }

/-- A sequence of flush calls applied in order. -/
def applyFlushes (flushes : List (List Vertex)) (st : DagState) : DagState :=
  flushes.foldl DagState.flushState st

/-- Fuel-bounded ancestry test on ids, walking the level-0 parent edges. -/
def DagState.isAncId (st : DagState) : Nat → Nat → Nat → Bool
  | 0, i, j => i == j
  | fuel + 1, i, j => i == j || (parentIdsOf st j).any (fun p => st.isAncId fuel i p)

/-- Ancestry query on vertexes: is x an ancestor of y (inclusive)?  Answers
only from local state. -/
def DagState.isAncestor (st : DagState) (x y : Vertex) : Bool :=
  match st.vertexId x, st.vertexId y with
  | some i, some j => st.isAncId st.nextId i j
  | _, _ => false

/-! ## Persistence, clone and pull exchange -/

inductive DagErr where
  | persistenceFailure
  | importMalformed
  | fastForwardViolated
deriving DecidableEq, Repr

/-- Modelled from the spec: CloneData is a serializable snapshot of the
segment set (here the defining level-0 edge records) plus the id-to-vertex
mapping, enough to reconstruct a standalone copy of the DAG state. -/
structure CloneData where
  idmap : List (Vertex × Nat)
  edges : List (Nat × List Nat)
  nextId : Nat
  master : List Nat
deriving DecidableEq, Repr

/-- Modelled from the spec: export_clone_data serializes the full
locally-known state. -/
def exportCloneData (st : DagState) : CloneData :=
  ⟨st.idmap, st.edges, st.nextId, st.master⟩

/-- Modelled from the spec: the internal-consistency check run by
import_clone_data before accepting a snapshot: ids below the id bound and
assigned at most once per vertex and per id, edge records keyed below the
bound with parents strictly below their child. -/
def validateClone (d : CloneData) : Bool :=
  d.idmap.all (fun p => p.2 < d.nextId) &&
  decide (d.idmap.map Prod.snd).Nodup &&
  decide (d.idmap.map Prod.fst).Nodup &&
  d.edges.all (fun e => e.1 < d.nextId && e.2.all (fun p => p < e.1))

/-- Modelled from the spec: import_clone_data bootstraps a fresh instance
from a snapshot and refuses internally inconsistent data or a non-fresh
target. -/
def importCloneData (d : CloneData) (st : DagState) : Except DagErr DagState :=
  if st.idmap.isEmpty then
    if validateClone d then .ok ⟨d.idmap, d.edges, d.nextId, d.master⟩
    else .error .importMalformed
  else .error .importMalformed

/-- Modelled from the spec: PullFastForwardData carries only the vertexes and
segments added between the old and the new master head. -/
structure PullData where
  idmapDelta : List (Vertex × Nat)
  edgesDelta : List (Nat × List Nat)
  baseNextId : Nat
  newNextId : Nat
deriving DecidableEq, Repr

/-- Modelled from the spec: import_pull_data applies a fast-forward delta and
fails if the delta's base does not match the current state. -/
def importPullData (d : PullData) (st : DagState) : Except DagErr DagState :=
  if st.nextId = d.baseNextId then
    .ok ⟨st.idmap ++ d.idmapDelta, st.edges ++ d.edgesDelta, d.newNextId, st.master⟩
  else .error .fastForwardViolated

/-- One record of the durable representation of a state. -/
inductive Record where
  | entry (v : Vertex) (i : Nat)
  | edgeRec (i : Nat) (pids : List Nat)
  | metaRec (nextId : Nat) (master : List Nat)
deriving DecidableEq, Repr

def encodeState (st : DagState) : List Record :=
  st.idmap.map (fun p => Record.entry p.1 p.2) ++
  st.edges.map (fun e => Record.edgeRec e.1 e.2) ++
  [Record.metaRec st.nextId st.master]

def decodeState : List Record → Option DagState
  | [] => none
  | Record.metaRec n m :: rest => if rest.isEmpty then some ⟨[], [], n, m⟩ else none
  | Record.entry v i :: rest =>
    (decodeState rest).map (fun st => { st with idmap := (v, i) :: st.idmap })
  | Record.edgeRec i pids :: rest =>
    (decodeState rest).map (fun st => { st with edges := (i, pids) :: st.edges })

/-- Write a sequence of records to staging storage; an injected failure at
position k aborts the whole write with nothing committed. -/
def writeSeq : Option Nat → List Record → Option (List Record)
  | _, [] => some []
  | some 0, _ :: _ => none
  | some (k + 1), r :: rs => (writeSeq (some k) rs).map (fun l => r :: l)
  | none, r :: rs => (writeSeq none rs).map (fun l => r :: l)

/-- Modelled from the spec: an engine instance with its in-memory state and
the durable state last committed to storage. -/
structure Engine where
  mem : DagState
  disk : DagState
deriving DecidableEq, Repr

/-- The three durable-state-changing operations of the engine. -/
inductive PersistOp where
  | flushOp (masterHeads : List Vertex)
  | importCloneOp (data : CloneData)
  | importPullOp (data : PullData)

/-- The in-memory state an operation intends to commit. -/
def persistTarget (op : PersistOp) (st : DagState) : Except DagErr DagState :=
  match op with
  | .flushOp hs => .ok (st.flushState hs)
  | .importCloneOp d => importCloneData d st
  | .importPullOp d => importPullData d st

/-- Modelled from the spec: flush and the import operations stage the whole
new durable representation and commit it atomically at the end; any failure,
including an injected persistence-I/O failure at position failAt of the write
sequence, leaves the previously committed durable state in place. -/
def runPersistOp (failAt : Option Nat) (op : PersistOp) (e : Engine) :
    Except DagErr Unit × Engine :=
  match persistTarget op e.mem with
  | .error err => (.error err, e)
  | .ok st2 =>
    match writeSeq failAt (encodeState st2) with
    | none => (.error .persistenceFailure, e)
    | some staged =>
      match decodeState staged with
      | none => (.error .persistenceFailure, e)
      | some d => (.ok (), ⟨st2, d⟩)

/-! ## Remote resolution protocol -/

/-- Modelled from the spec: an AncestorPath names a position relative to a
head (the vertex dist steps back along the first-parent chain), independent
of any id space. -/
structure AncestorPath where
  head : Vertex
  dist : Nat
deriving DecidableEq, Repr

/-- The remote-protocol interface of the source (trait
RemoteIdConvertProtocol): two batched, fallible operations. -/
structure RemoteIdConvertProtocol where
  resolveNamesToRelativePaths :
    List Vertex → List Vertex → Except DagErr (List (AncestorPath × List Vertex))
  resolveRelativePathsToNames :
    List AncestorPath → Except DagErr (List (AncestorPath × List Vertex))

def firstParentOf (st : DagState) (i : Nat) : Option Nat :=
  (parentIdsOf st i).head?

/-- The first-parent chain starting at an id, followed for at most fuel
steps. -/
def fpChain (st : DagState) : Nat → Nat → List Nat
  | 0, i => [i]
  | fuel + 1, i =>
    i :: (match firstParentOf st i with
      | none => []
      | some p => fpChain st fuel p)

/-- Index of the first occurrence of a value in a list. -/
def idxOf? (t : Nat) : List Nat → Option Nat
  | [] => none
  | a :: l => if a = t then some 0 else (idxOf? t l).map (fun d => d + 1)

/-- Modelled from the spec: how a server answers a single name in
resolve_names_to_relative_paths: locate the name's id and describe it as a
distance along the first-parent chain of one of the presented heads. -/
def serverResolveName (sv : DagState) (heads : List Vertex) (n : Vertex) :
    Option (AncestorPath × List Vertex) := do
  let t ← sv.vertexId n
  heads.findSome? (fun h => do
    let hid ← sv.vertexId h
    let d ← idxOf? t (fpChain sv sv.nextId hid)
    some (AncestorPath.mk h d, [n]))

/-- Modelled from the spec: the remote protocol backed by a server instance
(TestDag::remote_protocol binds the server's snapshot behind the protocol
interface). -/
def remoteProtocolOf (sv : DagState) : RemoteIdConvertProtocol where
  resolveNamesToRelativePaths := fun heads names =>
    .ok (names.filterMap (serverResolveName sv heads))
  resolveRelativePathsToNames := fun paths =>
    .ok (paths.filterMap (fun p => do
      let hid ← sv.vertexId p.head
      let t ← (fpChain sv sv.nextId hid).get? p.dist
      let n ← sv.vertexName t
      some (p, [n])))

/-- Modelled from the spec: a client engine: a local state (its id space may
cover lazily known vertexes whose names are absent from the local bijection),
the head names it presents to the protocol, and its remote protocol handle. -/
structure ClientState where
  st : DagState
  heads : List Vertex
  remote : RemoteIdConvertProtocol

/-- Modelled from the spec: vertex_id checks the local bijection first; only
when the vertex is absent does it issue a single batched resolution call and
translate the returned relative path into an id by walking its own
first-parent chain.  The second component counts remote calls issued. -/
def clientVertexId (c : ClientState) (v : Vertex) : Option Nat × Nat :=
  match c.st.vertexId v with
  | some i => (some i, 0)
  | none =>
    match c.remote.resolveNamesToRelativePaths c.heads [v] with
    | .error _ => (none, 1)
    | .ok resp =>
      match resp.find? (fun r => r.2.contains v) with
      | none => (none, 1)
      | some r =>
        match c.st.vertexId r.1.head with
        | none => (none, 1)
        | some hid => ((fpChain c.st c.st.nextId hid).get? r.1.dist, 1)

/-! ## The test harness: ProtocolMonitor, output, ASCII graphs -/

def fmtVertexList (vs : List Vertex) : String :=
  "[" ++ String.intercalate ", " vs ++ "]"

def fmtPathList (paths : List AncestorPath) : String :=
  "[" ++ String.intercalate ", " (paths.map (fun p => p.head ++ "~" ++ toString p.dist)) ++ "]"

/-- From tests/test_dag.rs: the log line pushed by the monitor's
resolve_names_to_relative_paths (names first, then heads). -/
def fmtResolveNames (names heads : List Vertex) : String :=
  "resolve names: " ++ fmtVertexList names ++ ", heads: " ++ fmtVertexList heads

/-- From tests/test_dag.rs: the log line pushed by the monitor's
resolve_relative_paths_to_names. -/
def fmtResolvePaths (paths : List AncestorPath) : String :=
  "resolve paths: " ++ fmtPathList paths

/-- From tests/test_dag.rs: ProtocolMonitor wraps an inner protocol and a
shared output vector.  The shared vector is threaded explicitly here: each
operation takes the current log and returns the updated log next to the
forwarded result. -/
structure ProtocolMonitor where
  inner : RemoteIdConvertProtocol

def ProtocolMonitor.resolveNamesToRelativePaths (m : ProtocolMonitor)
    (log : List String) (heads names : List Vertex) :
    List String × Except DagErr (List (AncestorPath × List Vertex)) :=
  (log ++ [fmtResolveNames names heads], m.inner.resolveNamesToRelativePaths heads names)

def ProtocolMonitor.resolveRelativePathsToNames (m : ProtocolMonitor)
    (log : List String) (paths : List AncestorPath) :
    List String × Except DagErr (List (AncestorPath × List Vertex)) :=
  (log ++ [fmtResolvePaths paths], m.inner.resolveRelativePathsToNames paths)

/-- The mem::swap of two values, as used by TestDag::output. -/
def memSwap {α : Type} (a b : α) : α × α := (b, a)

/-- From tests/test_dag.rs: TestDag::output swaps the shared log with a fresh
empty vector and returns the accumulated lines; first component is the
returned list, second the log left behind. -/
def testDagOutput (shared : List String) : List String × List String :=
  let result : List String := []
  memSwap result shared

/-- From tests/test_dag.rs: get_heads_and_parents_func_from_ascii, embedded
from the parsed parent map onward (drawdag::parse lives in an external
crate).  Heads are the map's keys that occur in no parent list (the set
difference of keys and flattened values), sorted ascending; the parent map is
passed through, names converted to vertexes (the identity conversion here). -/
def getHeadsAndParents (parents : List (Vertex × List Vertex)) :
    List Vertex × List (Vertex × List Vertex) :=
  let keys := (parents.map Prod.fst).dedup
  let hds := keys.filter (fun k => parents.all (fun p => !p.2.contains k))
  (List.insertionSort (fun a b => vertexLe a b = true) hds, parents)

/-! ## Segments -/

/-- A segment: a contiguous id range forming an unbroken chain at a level,
with the parent ids of its lowest id. -/
structure Segment where
  level : Nat
  low : Nat
  high : Nat
  parents : List Nat
deriving DecidableEq, Repr

/-- One step of the level-0 segment scan: id i extends the open segment when
its sole parent is the previous id, otherwise the open segment is emitted and
a new one opened. -/
def extendSeg (st : DagState) (acc : List Segment × Option Segment) (i : Nat) :
    List Segment × Option Segment :=
  match acc.2 with
  | none => (acc.1, some ⟨0, i, i, parentIdsOf st i⟩)
  | some s =>
    if parentIdsOf st i = [s.high] then (acc.1, some { s with high := i })
    else (acc.1 ++ [s], some ⟨0, i, i, parentIdsOf st i⟩)

/-- Modelled from the spec: the level-0 segments covering the assigned ids,
derived from the edge records. -/
def segments0 (st : DagState) : List Segment :=
  match (List.range st.nextId).foldl (extendSeg st) ([], none) with
  | (segs, none) => segs
  | (segs, some s) => segs ++ [s]

/-- One step of the level-k merge: a next segment whose parent is the open
run's high id joins the run while the run is below the configured segment
size; otherwise the run is emitted as a level-lvl segment when it reached the
size (and merged at least two segments). -/
def stepMerge (segSize lvl : Nat) (acc : List Segment × Option (Segment × Nat))
    (s : Segment) : List Segment × Option (Segment × Nat) :=
  match acc.2 with
  | none => (acc.1, some (⟨lvl, s.low, s.high, s.parents⟩, 1))
  | some (cur, cnt) =>
    if s.parents = [cur.high] ∧ cnt < segSize then
      (acc.1, some ({ cur with high := s.high }, cnt + 1))
    else
      (acc.1 ++ (if segSize ≤ cnt ∧ 2 ≤ cnt then [cur] else []),
        some (⟨lvl, s.low, s.high, s.parents⟩, 1))

/-- Modelled from the spec: merge adjacent level-(k-1) segments into
level-lvl segments whenever the configured segment-size threshold is
reached. -/
def mergeOnce (segSize lvl : Nat) (segs : List Segment) : List Segment :=
  match segs.foldl (stepMerge segSize lvl) ([], none) with
  | (out, none) => out
  | (out, some (cur, cnt)) => out ++ (if segSize ≤ cnt ∧ 2 ≤ cnt then [cur] else [])

/-- High-level segments built by repeated merging, one level per iteration. -/
def higherLevels (segSize : Nat) : Nat → Nat → List Segment → List Segment
  | 0, _, _ => []
  | fuel + 1, lvl, segs =>
    let merged := mergeOnce segSize lvl segs
    if merged.isEmpty then [] else merged ++ higherLevels segSize fuel (lvl + 1) merged

/-- The full segment set of an instance at a given segment size. -/
def buildSegments (segSize : Nat) (st : DagState) : List Segment :=
  let base := segments0 st
  base ++ higherLevels segSize st.nextId 1 base

/-- An engine instance as configured by TestDag::new_with_segment_size: the
assigned state plus the segment set built with that instance's segment
size. -/
structure BuiltEngine where
  st : DagState
  segSize : Nat
  segs : List Segment
deriving DecidableEq, Repr

/-- Build an instance from scratch with a given segment size. -/
def buildEngine (ps : Vertex → List Vertex) (fuel : Nat) (heads : List Vertex)
    (segSize : Nat) : Option BuiltEngine :=
  (addHeads ps fuel heads DagState.empty).map
    (fun st => ⟨st, segSize, buildSegments segSize st⟩)

def findSeg (segs : List Segment) (i : Nat) : Option Segment :=
  segs.find? (fun s => decide (s.low ≤ i) && decide (i ≤ s.high))

/-- Segment-walk ancestry on ids: inside the segment containing y everything
from its low id up to y is an ancestor; beyond that, recurse into the
segment's parents. -/
def segAncestor (segs : List Segment) : Nat → Nat → Nat → Bool
  | 0, x, y => x == y
  | fuel + 1, x, y =>
    match findSeg segs y with
    | none => x == y
    | some s =>
      (decide (s.low ≤ x) && decide (x ≤ y)) ||
        s.parents.any (fun p => segAncestor segs fuel x p)

/-- The ancestry query of an instance, answered from its level-0 segments
(higher levels are pure acceleration). -/
def BuiltEngine.isAncestorQ (e : BuiltEngine) (x y : Vertex) : Bool :=
  match e.st.vertexId x, e.st.vertexId y with
  | some i, some j =>
    segAncestor (e.segs.filter (fun s => s.level == 0)) e.st.nextId i j
  | _, _ => false


/-- The state only ever grows: the bijection and edge lists are extended at
the end, the master set is untouched. -/
def ExtendsSt (st st2 : DagState) : Prop :=
  (∃ l, st2.idmap = st.idmap ++ l) ∧ st.nextId ≤ st2.nextId ∧ st2.master = st.master

/-- Invariants of a reachable engine state: every id is below the next free
id, vertexes and ids are each assigned at most once, and the level-0 edge
records point only at earlier ids. -/
structure WFState (st : DagState) : Prop where
  ids_lt : ∀ p ∈ st.idmap, p.2 < st.nextId
  names_nodup : (st.idmap.map Prod.fst).Nodup
  ids_nodup : (st.idmap.map Prod.snd).Nodup
  edges_fst_lt : ∀ e ∈ st.edges, e.1 < st.nextId
  edges_parents_lt : ∀ e ∈ st.edges, ∀ p ∈ e.2, p < e.1

/-- The parents-before-children property, as a state invariant relative to a
parent function: every assigned vertex has all of its parents assigned with
strictly smaller ids. -/
def TopoOk (ps : Vertex → List Vertex) (st : DagState) : Prop :=
  ∀ v i, st.vertexId v = some i → ∀ p ∈ ps v, ∃ j, st.vertexId p = some j ∧ j < i

/-! ## Basic lemmas about assignVertex and addHeads -/

theorem extendsSt_refl (st : DagState) : ExtendsSt st st :=
  ⟨⟨[], by simp⟩, le_refl _, rfl⟩

theorem extendsSt_trans {a b c : DagState} (h1 : ExtendsSt a b) (h2 : ExtendsSt b c) :
    ExtendsSt a c := by
  obtain ⟨⟨l1, hl1⟩, hn1, hm1⟩ := h1
  obtain ⟨⟨l2, hl2⟩, hn2, hm2⟩ := h2
  exact ⟨⟨l1 ++ l2, by rw [hl2, hl1, List.append_assoc]⟩, le_trans hn1 hn2, hm2.trans hm1⟩

theorem extendsSt_insertNew (st : DagState) (v : Vertex) (pids : List Nat) :
    ExtendsSt st (st.insertNew v pids) :=
  ⟨⟨[(v, st.nextId)], rfl⟩, Nat.le_succ _, rfl⟩

/-- Generic preservation lemma for the option-valued folds used by add_heads. -/
theorem foldlM_preserves {α : Type} {P : DagState → α → DagState → Prop}
    (f : DagState → α → Option DagState)
    (hP : ∀ s a s2, f s a = some s2 → P s a s2)
    (R : DagState → DagState → Prop)
    (hrefl : ∀ s, R s s)
    (htrans : ∀ a b c, R a b → R b c → R a c)
    (hstep : ∀ s a s2, P s a s2 → R s s2) :
    ∀ (l : List α) (s s2 : DagState), l.foldlM f s = some s2 → R s s2 := by
  intro l
  induction l with
  | nil =>
    intro s s2 h
    simp only [List.foldlM_nil, Option.pure_def, Option.some.injEq] at h
    exact h ▸ hrefl s
  | cons a t ih =>
    intro s s2 h
    simp only [List.foldlM_cons, Option.bind_eq_bind] at h
    obtain ⟨s1, hs1, hrest⟩ := Option.bind_eq_some.mp h
    exact htrans _ _ _ (hstep _ _ _ (hP _ _ _ hs1)) (ih s1 s2 hrest)

theorem assignVertex_extends (ps : Vertex → List Vertex) :
    ∀ (fuel : Nat) (st : DagState) (v : Vertex) (st2 : DagState),
      assignVertex ps fuel st v = some st2 → ExtendsSt st st2 := by
  intro fuel
  induction fuel with
  | zero =>
    intro st v st2 h
    simp only [assignVertex] at h
    split at h
    · exact (Option.some.injEq _ _ ▸ h) ▸ extendsSt_refl st
    · exact absurd h (by simp)
  | succ f ih =>
    intro st v st2 h
    simp only [assignVertex] at h
    split at h
    · cases h; exact extendsSt_refl st
    · cases hfold : (ps v).foldlM (fun s p => assignVertex ps f s p) st with
      | none => rw [hfold] at h; exact absurd h (by simp)
      | some s =>
        rw [hfold] at h
        dsimp only at h
        have hes : ExtendsSt st s :=
          foldlM_preserves _ (fun _ _ _ hh => hh) ExtendsSt extendsSt_refl
            (fun _ _ _ => extendsSt_trans) (fun s2 a s3 hh => ih s2 a s3 hh) _ _ _ hfold
        by_cases hsv : s.hasVertex v = true
        · rw [if_pos hsv] at h; exact absurd h (by simp)
        · rw [if_neg hsv] at h
          cases h
          exact extendsSt_trans hes (extendsSt_insertNew s v _)

/-- A find? over an extended association list agrees with the original list
wherever the original already answered. -/
theorem find?_append_of_some {α : Type} (p : α → Bool) (l l2 : List α) (a : α)
    (h : l.find? p = some a) : (l ++ l2).find? p = some a := by
  induction l with
  | nil => simp at h
  | cons x t ih =>
    simp only [List.find?_cons, List.cons_append] at h ⊢
    split at h
    · exact h
    · simp only [*]

theorem vertexId_extends {st st2 : DagState} (h : ExtendsSt st st2) (v : Vertex)
    {i : Nat} (hv : st.vertexId v = some i) : st2.vertexId v = some i := by
  obtain ⟨⟨l, hl⟩, _, _⟩ := h
  unfold DagState.vertexId at hv ⊢
  obtain ⟨a, ha, hmap⟩ := Option.map_eq_some.mp hv
  rw [hl, find?_append_of_some _ _ _ _ ha]
  simpa using hmap

theorem hasVertex_iff_vertexId {st : DagState} {v : Vertex} :
    st.hasVertex v = true ↔ ∃ i, st.vertexId v = some i := by
  unfold DagState.hasVertex DagState.vertexId
  rw [List.any_eq_true]
  constructor
  · rintro ⟨p, hp, hpe⟩
    have : (st.idmap.find? (fun q => q.1 = v)).isSome := by
      rw [List.find?_isSome]
      exact ⟨p, hp, hpe⟩
    obtain ⟨q, hq⟩ := Option.isSome_iff_exists.mp this
    exact ⟨q.2, by rw [hq]; rfl⟩
  · rintro ⟨i, hi⟩
    obtain ⟨a, ha, _⟩ := Option.map_eq_some.mp hi
    have h2 := List.find?_some ha
    exact ⟨a, List.mem_of_find?_eq_some ha, h2⟩

theorem hasVertex_extends {st st2 : DagState} (h : ExtendsSt st st2) (v : Vertex)
    (hv : st.hasVertex v = true) : st2.hasVertex v = true := by
  obtain ⟨i, hi⟩ := hasVertex_iff_vertexId.mp hv
  exact hasVertex_iff_vertexId.mpr ⟨i, vertexId_extends h v hi⟩

/-- A successfully assigned vertex is present afterwards. -/
theorem assignVertex_hasVertex (ps : Vertex → List Vertex) (fuel : Nat)
    (st : DagState) (v : Vertex) (st2 : DagState)
    (h : assignVertex ps fuel st v = some st2) : st2.hasVertex v = true := by
  cases fuel with
  | zero =>
    simp only [assignVertex] at h
    split at h
    · cases h; assumption
    · exact absurd h (by simp)
  | succ f =>
    simp only [assignVertex] at h
    split at h
    · cases h; assumption
    · cases hfold : (ps v).foldlM (fun s p => assignVertex ps f s p) st with
      | none => rw [hfold] at h; exact absurd h (by simp)
      | some s =>
        rw [hfold] at h
        dsimp only at h
        by_cases hsv : s.hasVertex v = true
        · rw [if_pos hsv] at h; exact absurd h (by simp)
        · rw [if_neg hsv] at h
          cases h
          unfold DagState.hasVertex DagState.insertNew
          simp

/-- Re-assigning an already-known vertex is a no-op at any fuel. -/
theorem assignVertex_of_hasVertex (ps : Vertex → List Vertex) (fuel : Nat)
    (st : DagState) (v : Vertex) (hv : st.hasVertex v = true) :
    assignVertex ps fuel st v = some st := by
  cases fuel <;> simp [assignVertex, hv]

/-- After a successful fold of assignments, every processed vertex is known. -/
theorem foldlM_assign_hasVertex (ps : Vertex → List Vertex) (fuel : Nat) :
    ∀ (l : List Vertex) (s s2 : DagState),
      l.foldlM (fun s p => assignVertex ps fuel s p) s = some s2 →
      ∀ p ∈ l, s2.hasVertex p = true := by
  intro l
  induction l with
  | nil => intro s s2 _ p hp; simp at hp
  | cons a t ih =>
    intro s s2 h p hp
    simp only [List.foldlM_cons, Option.bind_eq_bind] at h
    obtain ⟨s1, hs1, hrest⟩ := Option.bind_eq_some.mp h
    rcases List.mem_cons.mp hp with rfl | hpt
    · have h1 : s1.hasVertex p = true := assignVertex_hasVertex ps fuel s p s1 hs1
      have hext : ExtendsSt s1 s2 :=
        foldlM_preserves _ (fun _ _ _ hh => hh) ExtendsSt extendsSt_refl
          (fun _ _ _ => extendsSt_trans)
          (fun s3 a s4 hh => assignVertex_extends ps fuel s3 a s4 hh) _ _ _ hrest
      exact hasVertex_extends hext p h1
    · exact ih s1 s2 hrest p hpt

theorem addHeads_extends (ps : Vertex → List Vertex) (fuel : Nat)
    (heads : List Vertex) (st st2 : DagState)
    (h : addHeads ps fuel heads st = some st2) : ExtendsSt st st2 :=
  foldlM_preserves _ (fun _ _ _ hh => hh) ExtendsSt extendsSt_refl
    (fun _ _ _ => extendsSt_trans)
    (fun s3 a s4 hh => assignVertex_extends ps fuel s3 a s4 hh) _ _ _ h

theorem addHeads_hasVertex (ps : Vertex → List Vertex) (fuel : Nat)
    (heads : List Vertex) (st st2 : DagState)
    (h : addHeads ps fuel heads st = some st2) :
    ∀ v ∈ heads, st2.hasVertex v = true :=
  foldlM_assign_hasVertex ps fuel heads st st2 h

/-- Re-running add_heads on a state that already knows all the heads returns
that state unchanged. -/
theorem addHeads_of_hasVertex (ps : Vertex → List Vertex) (fuel : Nat)
    (heads : List Vertex) (st : DagState)
    (h : ∀ v ∈ heads, st.hasVertex v = true) :
    addHeads ps fuel heads st = some st := by
  unfold addHeads
  induction heads with
  | nil => rfl
  | cons a t ih =>
    simp only [List.foldlM_cons, Option.bind_eq_bind,
      assignVertex_of_hasVertex ps fuel st a (h a (List.mem_cons_self a t)),
      Option.some_bind]
    exact ih (fun v hv => h v (List.mem_cons_of_mem a hv))

/-- C3.  add_heads is idempotent: running it a second time with the same
parent function and heads on the state produced by the first run returns
exactly that state, hence the same Vertex-Id bijection, the same edge
records (and with them the same derived segment set), and the same group
assignment; re-adding an already-known head is a no-op. -/
theorem addHeads_idempotent (ps : Vertex → List Vertex) (fuel : Nat)
    (heads : List Vertex) :
    (addHeads ps fuel heads DagState.empty).bind (addHeads ps fuel heads) =
      addHeads ps fuel heads DagState.empty := by
  cases h : addHeads ps fuel heads DagState.empty with
  | none => rfl
  | some st =>
    simp only [Option.some_bind]
    exact addHeads_of_hasVertex ps fuel heads st (addHeads_hasVertex ps fuel heads _ st h)

/-! ## Well-formedness of the engine state -/

theorem wfState_empty : WFState DagState.empty := by
  constructor <;> simp [DagState.empty]

theorem vertexId_lt {st : DagState} (hwf : WFState st) {v : Vertex} {i : Nat}
    (h : st.vertexId v = some i) : i < st.nextId := by
  unfold DagState.vertexId at h
  obtain ⟨a, ha, hmap⟩ := Option.map_eq_some.mp h
  exact hmap ▸ hwf.ids_lt a (List.mem_of_find?_eq_some ha)

theorem hasVertex_false_notMem {st : DagState} {v : Vertex}
    (h : ¬st.hasVertex v = true) : ∀ p ∈ st.idmap, p.1 ≠ v := by
  unfold DagState.hasVertex at h
  intro p hp
  by_contra he
  exact h (List.any_eq_true.mpr ⟨p, hp, by simp [he]⟩)

theorem nodup_append_singleton {α : Type} {l : List α} {a : α}
    (hl : l.Nodup) (ha : a ∉ l) : (l ++ [a]).Nodup := by
  rw [List.nodup_append]
  refine ⟨hl, List.nodup_singleton a, ?_⟩
  intro x hx hxmem
  rw [List.mem_singleton] at hxmem
  exact ha (hxmem ▸ hx)

theorem wfState_insertNew {st : DagState} (hwf : WFState st) {v : Vertex}
    {pids : List Nat} (hv : ¬st.hasVertex v = true)
    (hpids : ∀ p ∈ pids, p < st.nextId) : WFState (st.insertNew v pids) := by
  constructor
  · intro p hp
    rcases List.mem_append.mp hp with h | h
    · exact Nat.lt_succ_of_lt (hwf.ids_lt p h)
    · simp only [List.mem_singleton] at h
      subst h
      exact Nat.lt_succ_self _
  · rw [DagState.insertNew, List.map_append]
    refine nodup_append_singleton hwf.names_nodup ?_
    intro hmem
    obtain ⟨p, hp, hpe⟩ := List.mem_map.mp hmem
    exact hasVertex_false_notMem hv p hp hpe
  · rw [DagState.insertNew, List.map_append]
    refine nodup_append_singleton hwf.ids_nodup ?_
    intro hmem
    obtain ⟨p, hp, hpe⟩ := List.mem_map.mp hmem
    exact absurd (hpe ▸ hwf.ids_lt p hp) (Nat.lt_irrefl _)
  · intro e he
    rcases List.mem_append.mp he with h | h
    · exact Nat.lt_succ_of_lt (hwf.edges_fst_lt e h)
    · simp only [List.mem_singleton] at h
      subst h
      exact Nat.lt_succ_self _
  · intro e he
    rcases List.mem_append.mp he with h | h
    · exact hwf.edges_parents_lt e h
    · simp only [List.mem_singleton] at h
      subst h
      exact hpids

/-- Generic unary-property preservation through the option-valued folds. -/
theorem foldlM_preserves_prop {α : Type} {Q : DagState → Prop}
    (f : DagState → α → Option DagState)
    (hstep : ∀ s a s2, Q s → f s a = some s2 → Q s2) :
    ∀ (l : List α) (s s2 : DagState), Q s → l.foldlM f s = some s2 → Q s2 := by
  intro l
  induction l with
  | nil =>
    intro s s2 hq h
    simp only [List.foldlM_nil, Option.pure_def, Option.some.injEq] at h
    exact h ▸ hq
  | cons a t ih =>
    intro s s2 hq h
    simp only [List.foldlM_cons, Option.bind_eq_bind] at h
    obtain ⟨s1, hs1, hrest⟩ := Option.bind_eq_some.mp h
    exact ih s1 s2 (hstep s a s1 hq hs1) hrest

theorem assignVertex_wf (ps : Vertex → List Vertex) :
    ∀ (fuel : Nat) (st : DagState) (v : Vertex) (st2 : DagState),
      WFState st → assignVertex ps fuel st v = some st2 → WFState st2 := by
  intro fuel
  induction fuel with
  | zero =>
    intro st v st2 hwf h
    simp only [assignVertex] at h
    split at h
    · cases h; exact hwf
    · exact absurd h (by simp)
  | succ f ih =>
    intro st v st2 hwf h
    simp only [assignVertex] at h
    split at h
    · cases h; exact hwf
    · cases hfold : (ps v).foldlM (fun s p => assignVertex ps f s p) st with
      | none => rw [hfold] at h; exact absurd h (by simp)
      | some s =>
        rw [hfold] at h
        dsimp only at h
        have hwfs : WFState s :=
          foldlM_preserves_prop _ (fun s2 a s3 hq hh => ih s2 a s3 hq hh) _ _ _ hwf hfold
        by_cases hsv : s.hasVertex v = true
        · rw [if_pos hsv] at h; exact absurd h (by simp)
        · rw [if_neg hsv] at h
          cases h
          refine wfState_insertNew hwfs hsv ?_
          intro p hp
          obtain ⟨w, _, hw⟩ := List.mem_filterMap.mp hp
          exact vertexId_lt hwfs hw

theorem addHeads_wf (ps : Vertex → List Vertex) (fuel : Nat) (heads : List Vertex)
    (st st2 : DagState) (hwf : WFState st) (h : addHeads ps fuel heads st = some st2) :
    WFState st2 :=
  foldlM_preserves_prop _ (fun s2 a s3 hq hh => assignVertex_wf ps fuel s2 a s3 hq hh)
    _ _ _ hwf h

/-! ## C1: the Vertex-Id round trip -/

/-- The id-to-name lookup inverts the name-to-id lookup on an association list
whose ids are pairwise distinct. -/
theorem find?_roundtrip :
    ∀ (l : List (Vertex × Nat)), (l.map Prod.snd).Nodup →
      ∀ (v : Vertex) (i : Nat), (l.find? (fun p => p.1 = v)).map Prod.snd = some i →
        (l.find? (fun p => p.2 = i)).map Prod.fst = some v := by
  intro l
  induction l with
  | nil => intro _ v i h; simp at h
  | cons x t ih =>
    intro hnd v i h
    by_cases hx : x.1 = v
    · rw [List.find?_cons_of_pos _ (by simp [hx])] at h
      simp only [Option.map_some', Option.some.injEq] at h
      rw [List.find?_cons_of_pos _ (by simp [h])]
      simp [hx]
    · rw [List.find?_cons_of_neg _ (by simp [hx])] at h
      have hit : i ∈ t.map Prod.snd := by
        obtain ⟨a, ha, hmap⟩ := Option.map_eq_some.mp h
        exact hmap ▸ List.mem_map_of_mem Prod.snd (List.mem_of_find?_eq_some ha)
      have hxi : ¬x.2 = i := by
        intro he
        rw [List.map_cons] at hnd
        exact (List.nodup_cons.mp hnd).1 (he ▸ hit)
      rw [List.find?_cons_of_neg _ (by simp [hxi])]
      exact ih (List.nodup_cons.mp (List.map_cons Prod.snd x t ▸ hnd)).2 v i h

/-- flush only changes group membership, never the bijection or the edges. -/
theorem flushState_idmap (st : DagState) (hs : List Vertex) :
    (st.flushState hs).idmap = st.idmap := rfl

theorem applyFlushes_idmap (flushes : List (List Vertex)) :
    ∀ st : DagState, (applyFlushes flushes st).idmap = st.idmap := by
  induction flushes with
  | nil => intro st; rfl
  | cons a t ih =>
    intro st
    show (applyFlushes t (st.flushState a)).idmap = st.idmap
    rw [ih (st.flushState a), flushState_idmap]

theorem vertexId_congr {st st2 : DagState} (h : st2.idmap = st.idmap) (v : Vertex) :
    st2.vertexId v = st.vertexId v := by
  unfold DagState.vertexId
  rw [h]

theorem vertexName_congr {st st2 : DagState} (h : st2.idmap = st.idmap) (i : Nat) :
    st2.vertexName i = st.vertexName i := by
  unfold DagState.vertexName
  rw [h]

/-- C1.  For every vertex added via add_heads and subsequently queried,
vertex_name (vertex_id v) returns v again, and the round trip still holds
after any sequence of flush calls: the Vertex-Id mapping is and remains a
bijection. -/
theorem vertex_id_name_roundtrip (ps : Vertex → List Vertex) (fuel : Nat)
    (heads : List Vertex) (flushes : List (List Vertex)) (st : DagState)
    (v : Vertex) (i : Nat)
    (h : addHeads ps fuel heads DagState.empty = some st)
    (hv : (applyFlushes flushes st).vertexId v = some i) :
    (applyFlushes flushes st).vertexName i = some v := by
  have hwf : WFState st := addHeads_wf ps fuel heads _ st wfState_empty h
  have hid := applyFlushes_idmap flushes st
  rw [vertexId_congr hid] at hv
  rw [vertexName_congr hid]
  exact find?_roundtrip st.idmap hwf.ids_nodup v i hv

/-- Witness for C1 on the concrete history A-B-C plus A-D with master flush
of C: the round trip holds for D after the flush. -/
theorem vertex_id_name_roundtrip_witness :
    (applyFlushes [["C"]] (DagState.mk
      [("A", 0), ("B", 1), ("C", 2), ("D", 3)]
      [(0, []), (1, [0]), (2, [1]), (3, [0])] 4 [])).vertexName 3 = some "D" := by
  refine vertex_id_name_roundtrip
    (fun v => if v = "B" then ["A"] else if v = "C" then ["B"] else if v = "D" then ["A"] else [])
    4 ["C", "D"] [["C"]] _ "D" 3 ?_ ?_
  · decide
  · decide

/-! ## C2: ids respect topological order -/

theorem vertexId_none_of_not_hasVertex {st : DagState} {v : Vertex}
    (h : ¬st.hasVertex v = true) : st.vertexId v = none := by
  cases hv : st.vertexId v with
  | none => rfl
  | some i => exact absurd (hasVertex_iff_vertexId.mpr ⟨i, hv⟩) h

theorem find?_append_none {α : Type} (p : α → Bool) (l l2 : List α)
    (h : l.find? p = none) : (l ++ l2).find? p = l2.find? p := by
  induction l with
  | nil => simp
  | cons x t ih =>
    have hall := List.find?_eq_none.mp h
    rw [List.cons_append, List.find?_cons_of_neg _ (hall x (List.mem_cons_self x t))]
    exact ih (List.find?_eq_none.mpr (fun a ha => hall a (List.mem_cons_of_mem x ha)))

theorem vertexId_insertNew_self {st : DagState} {v : Vertex} {pids : List Nat}
    (hv : ¬st.hasVertex v = true) :
    (st.insertNew v pids).vertexId v = some st.nextId := by
  unfold DagState.vertexId DagState.insertNew at *
  have hn : st.idmap.find? (fun p => p.1 = v) = none := by
    have := vertexId_none_of_not_hasVertex hv
    unfold DagState.vertexId at this
    exact Option.map_eq_none.mp this
  rw [find?_append_none _ _ _ hn]
  simp

theorem vertexId_insertNew_cases {st : DagState} {v w : Vertex} {pids : List Nat}
    {k : Nat} (h : (st.insertNew v pids).vertexId w = some k) :
    st.vertexId w = some k ∨ (w = v ∧ k = st.nextId ∧ st.vertexId w = none) := by
  unfold DagState.vertexId DagState.insertNew at h
  cases hfind : st.idmap.find? (fun p => p.1 = w) with
  | some a =>
    left
    rw [find?_append_of_some _ _ _ _ hfind] at h
    unfold DagState.vertexId
    rw [hfind]
    exact h
  | none =>
    right
    rw [find?_append_none _ _ _ hfind] at h
    by_cases hvw : v = w
    · rw [List.find?_cons_of_pos _ (by simp [hvw])] at h
      simp only [Option.map_some', Option.some.injEq] at h
      refine ⟨hvw.symm, h.symm, ?_⟩
      unfold DagState.vertexId
      rw [hfind]
      rfl
    · rw [List.find?_cons_of_neg _ (by simp [hvw])] at h
      simp at h

theorem topoOk_empty (ps : Vertex → List Vertex) : TopoOk ps DagState.empty := by
  intro v i h
  simp [DagState.vertexId, DagState.empty] at h

theorem assignVertex_topo (ps : Vertex → List Vertex) :
    ∀ (fuel : Nat) (st : DagState) (v : Vertex) (st2 : DagState),
      WFState st ∧ TopoOk ps st → assignVertex ps fuel st v = some st2 →
      WFState st2 ∧ TopoOk ps st2 := by
  intro fuel
  induction fuel with
  | zero =>
    intro st v st2 hinv h
    simp only [assignVertex] at h
    split at h
    · cases h; exact hinv
    · exact absurd h (by simp)
  | succ f ih =>
    intro st v st2 hinv h
    simp only [assignVertex] at h
    split at h
    · cases h; exact hinv
    · cases hfold : (ps v).foldlM (fun s p => assignVertex ps f s p) st with
      | none => rw [hfold] at h; exact absurd h (by simp)
      | some s =>
        rw [hfold] at h
        dsimp only at h
        have hinvs : WFState s ∧ TopoOk ps s :=
          foldlM_preserves_prop _ (fun s2 a s3 hq hh => ih s2 a s3 hq hh) _ _ _ hinv hfold
        have hall : ∀ p ∈ ps v, s.hasVertex p = true :=
          foldlM_assign_hasVertex ps f (ps v) st s hfold
        by_cases hsv : s.hasVertex v = true
        · rw [if_pos hsv] at h; exact absurd h (by simp)
        · rw [if_neg hsv] at h
          cases h
          refine ⟨wfState_insertNew hinvs.1 hsv ?_, ?_⟩
          · intro p hp
            obtain ⟨w, _, hw⟩ := List.mem_filterMap.mp hp
            exact vertexId_lt hinvs.1 hw
          · intro w k hk p hp
            have hext := extendsSt_insertNew s v ((ps v).filterMap s.vertexId)
            rcases vertexId_insertNew_cases hk with hks | ⟨rfl, rfl, _⟩
            · obtain ⟨j, hj, hjk⟩ := hinvs.2 w k hks p hp
              exact ⟨j, vertexId_extends hext p hj, hjk⟩
            · obtain ⟨j, hj⟩ := hasVertex_iff_vertexId.mp (hall p hp)
              exact ⟨j, vertexId_extends hext p hj, vertexId_lt hinvs.1 hj⟩

/-- C2.  In a graph built by add_heads from scratch, the id assigned to any
parent is strictly smaller than the id assigned to the child: ids respect
topological order. -/
theorem parent_id_lt_child_id (ps : Vertex → List Vertex) (fuel : Nat)
    (heads : List Vertex) (st : DagState) (v p : Vertex) (i : Nat)
    (h : addHeads ps fuel heads DagState.empty = some st)
    (hv : st.vertexId v = some i) (hp : p ∈ ps v) :
    ∃ j, st.vertexId p = some j ∧ j < i := by
  have hinv : WFState st ∧ TopoOk ps st :=
    foldlM_preserves_prop _ (fun s2 a s3 hq hh => assignVertex_topo ps fuel s2 a s3 hq hh)
      _ _ _ ⟨wfState_empty, topoOk_empty ps⟩ h
  exact hinv.2 v i hv p hp

/-- Witness for C2 on the history A-B-C plus A-D: the parent B of C received
a smaller id than C. -/
theorem parent_id_lt_child_id_witness :
    ∃ j, (DagState.mk [("A", 0), ("B", 1), ("C", 2), ("D", 3)]
      [(0, []), (1, [0]), (2, [1]), (3, [0])] 4 []).vertexId "B" = some j ∧ j < 2 := by
  refine parent_id_lt_child_id
    (fun v => if v = "B" then ["A"] else if v = "C" then ["B"] else if v = "D" then ["A"] else [])
    4 ["C", "D"] _ "C" "B" 2 ?_ ?_ ?_
  · decide
  · decide
  · decide

/-! ## C5: flush and import are all-or-nothing -/

theorem decodeState_meta (n : Nat) (m : List Nat) :
    decodeState [Record.metaRec n m] = some ⟨[], [], n, m⟩ := by
  simp [decodeState]

theorem decodeState_edgesRec (l : List (Nat × List Nat)) :
    ∀ (rs : List Record) (st : DagState), decodeState rs = some st →
      decodeState (l.map (fun e => Record.edgeRec e.1 e.2) ++ rs) =
        some { st with edges := l ++ st.edges } := by
  induction l with
  | nil => intro rs st h; simpa using h
  | cons x t ih =>
    intro rs st h
    simp only [List.map_cons, List.cons_append, decodeState, List.append_eq, ih rs st h,
      Option.map_some', Option.some.injEq, Prod.mk.eta, List.cons_append]

theorem decodeState_entries (l : List (Vertex × Nat)) :
    ∀ (rs : List Record) (st : DagState), decodeState rs = some st →
      decodeState (l.map (fun p => Record.entry p.1 p.2) ++ rs) =
        some { st with idmap := l ++ st.idmap } := by
  induction l with
  | nil => intro rs st h; simpa using h
  | cons x t ih =>
    intro rs st h
    simp only [List.map_cons, List.cons_append, decodeState, List.append_eq, ih rs st h,
      Option.map_some', Option.some.injEq, Prod.mk.eta, List.cons_append]

/-- The durable representation round-trips: what a successful commit decodes
from staging is exactly the state that was encoded. -/
theorem decodeState_encodeState (st : DagState) :
    decodeState (encodeState st) = some st := by
  have h1 := decodeState_meta st.nextId st.master
  have h2 := decodeState_edgesRec st.edges [Record.metaRec st.nextId st.master] _ h1
  have h3 := decodeState_entries st.idmap _ _ h2
  unfold encodeState
  rw [List.append_assoc]
  simpa using h3

/-- C5.  flush and every import operation are all-or-nothing: whenever the
operation reports an error (malformed input, fast-forward violation, or a
persistence failure injected at any point of the durable write sequence), the
durable state observable afterwards is exactly the durable state from before
the call. -/
theorem runPersistOp_ok_or_unchanged (failAt : Option Nat) (op : PersistOp)
    (e : Engine) :
    (runPersistOp failAt op e).1 = Except.ok () ∨ (runPersistOp failAt op e).2 = e := by
  unfold runPersistOp
  cases persistTarget op e.mem with
  | error e2 => right; rfl
  | ok st2 =>
    dsimp only
    cases writeSeq failAt (encodeState st2) with
    | none => right; rfl
    | some staged =>
      dsimp only
      cases decodeState staged with
      | none => right; rfl
      | some d => left; rfl

theorem persist_all_or_nothing (failAt : Option Nat) (op : PersistOp) (e : Engine)
    (err : DagErr) (h : (runPersistOp failAt op e).1 = .error err) :
    (runPersistOp failAt op e).2.disk = e.disk := by
  rcases runPersistOp_ok_or_unchanged failAt op e with hok | hunch
  · rw [h] at hok
    exact absurd hok (by simp)
  · rw [hunch]

/-- Witness for C5: a write failure injected at the very first record of a
flush leaves the (empty) durable state untouched. -/
theorem persist_all_or_nothing_witness :
    (runPersistOp (some 0) (PersistOp.flushOp [])
      (Engine.mk DagState.empty DagState.empty)).2.disk = DagState.empty := by
  refine persist_all_or_nothing (some 0) (PersistOp.flushOp [])
    (Engine.mk DagState.empty DagState.empty) DagErr.persistenceFailure ?_
  rfl

/-! ## C7: ProtocolMonitor is a pure decorator -/

/-- C7.  For every wrapped inner protocol, every shared log and every input,
each monitor operation appends exactly one formatted line to the log, passes
its arguments to the inner protocol unchanged, and returns the inner
protocol's result unchanged. -/
theorem protocolMonitor_decorates (m : ProtocolMonitor) (log : List String)
    (heads names : List Vertex) (paths : List AncestorPath) :
    ((m.resolveNamesToRelativePaths log heads names).2 =
        m.inner.resolveNamesToRelativePaths heads names) ∧
    ((m.resolveNamesToRelativePaths log heads names).1 =
        log ++ [fmtResolveNames names heads]) ∧
    ((m.resolveRelativePathsToNames log paths).2 =
        m.inner.resolveRelativePathsToNames paths) ∧
    ((m.resolveRelativePathsToNames log paths).1 =
        log ++ [fmtResolvePaths paths]) :=
  ⟨rfl, rfl, rfl, rfl⟩

/-! ## C9: TestDag::output drains the shared log -/

/-- C9.  output returns every accumulated log line in order, leaves the
shared log empty, and a second call with no intervening remote activity
returns the empty list. -/
theorem output_drains_log (shared : List String) :
    (testDagOutput shared).1 = shared ∧ (testDagOutput shared).2 = [] ∧
    (testDagOutput (testDagOutput shared).2).1 = [] :=
  ⟨rfl, rfl, rfl⟩

/-! ## C4: clone round-trip -/

/-- Every state reachable by add_heads passes the import consistency check
when exported. -/
theorem validateClone_of_wf {st : DagState} (hwf : WFState st) :
    validateClone (exportCloneData st) = true := by
  unfold validateClone exportCloneData
  simp only [Bool.and_eq_true, List.all_eq_true, decide_eq_true_eq]
  refine ⟨⟨⟨?_, ?_⟩, ?_⟩, ?_⟩
  · intro p hp
    exact hwf.ids_lt p hp
  · exact hwf.ids_nodup
  · exact hwf.names_nodup
  · intro e he
    exact ⟨hwf.edges_fst_lt e he, fun p hp => hwf.edges_parents_lt e he p hp⟩

/-- C4.  Importing the exported clone data into a fresh instance succeeds and
reproduces the source state exactly, hence the imported instance answers
every ancestry query identically to the source, and any lookup of a vertex
from the exported history is answered locally with zero remote-protocol
calls, regardless of the protocol the client is bound to. -/
theorem clone_roundtrip (ps : Vertex → List Vertex) (fuel : Nat) (heads : List Vertex)
    (st : DagState) (h : addHeads ps fuel heads DagState.empty = some st) :
    importCloneData (exportCloneData st) DagState.empty = .ok st ∧
    ∀ st2, importCloneData (exportCloneData st) DagState.empty = .ok st2 →
      (∀ x y : Vertex, st2.isAncestor x y = st.isAncestor x y) ∧
      ∀ proto hds v i, st2.vertexId v = some i →
        clientVertexId (ClientState.mk st2 hds proto) v = (some i, 0) := by
  have hwf := addHeads_wf ps fuel heads _ st wfState_empty h
  have h1 : importCloneData (exportCloneData st) DagState.empty = .ok st := by
    unfold importCloneData
    rw [if_pos (by rfl), if_pos (validateClone_of_wf hwf)]
    rfl
  refine ⟨h1, ?_⟩
  intro st2 h2
  rw [h1] at h2
  cases h2
  refine ⟨fun x y => rfl, ?_⟩
  intro proto hds v i hv
  unfold clientVertexId
  rw [hv]

/-- Witness for C4 on the concrete two-vertex history A-B. -/
theorem clone_roundtrip_witness :
    importCloneData
      (exportCloneData (DagState.mk [("A", 0), ("B", 1)] [(0, []), (1, [0])] 2 []))
      DagState.empty =
      .ok (DagState.mk [("A", 0), ("B", 1)] [(0, []), (1, [0])] 2 []) :=
  (clone_roundtrip (fun v => if v = "B" then ["A"] else []) 3 ["B"]
    (DagState.mk [("A", 0), ("B", 1)] [(0, []), (1, [0])] 2 []) (by decide)).1

/-! ## C6: lazy remote resolution -/

theorem get?_of_idxOf? (t : Nat) :
    ∀ (l : List Nat) (d : Nat), idxOf? t l = some d → l.get? d = some t := by
  intro l
  induction l with
  | nil => intro d h; simp [idxOf?] at h
  | cons a as ih =>
    intro d h
    by_cases ha : a = t
    · rw [idxOf?, if_pos ha] at h
      cases h
      simp [ha]
    · rw [idxOf?, if_neg ha] at h
      obtain ⟨d2, hd2, hmap⟩ := Option.map_eq_some.mp h
      subst hmap
      simpa using ih d2 hd2

/-- The first-parent chain depends only on the edge records. -/
theorem fpChain_congr {st st2 : DagState} (h : st.edges = st2.edges) :
    ∀ (fuel i : Nat), fpChain st fuel i = fpChain st2 fuel i := by
  intro fuel
  induction fuel with
  | zero => intro i; rfl
  | succ f ih =>
    intro i
    have hp : parentIdsOf st i = parentIdsOf st2 i := by
      unfold parentIdsOf
      rw [h]
    unfold fpChain firstParentOf
    rw [hp]
    cases (parentIdsOf st2 i).head? with
    | none => rfl
    | some p =>
      dsimp only
      rw [ih p]

/-- C6.  When a client whose remote protocol is bound to a server instance
looks up a vertex absent from its local bijection but known to the server
(reachable along the first-parent chain of a head the client presents),
exactly one remote resolution call is issued and the lookup succeeds with the
server's id; a lookup of a locally known vertex issues zero remote calls, so
the protocol is invoked only for entries missing from the local bijection. -/
theorem lazy_remote_resolution (sv : DagState) (c : ClientState) (hd v : Vertex)
    (hid t d : Nat)
    (hremote : c.remote = remoteProtocolOf sv)
    (hheads : c.heads = [hd])
    (hedges : c.st.edges = sv.edges)
    (hnext : c.st.nextId = sv.nextId)
    (hmiss : c.st.vertexId v = none)
    (hsv : sv.vertexId v = some t)
    (hsh : sv.vertexId hd = some hid)
    (hch : c.st.vertexId hd = some hid)
    (hdist : idxOf? t (fpChain sv sv.nextId hid) = some d) :
    clientVertexId c v = (some t, 1) ∧
    (∀ w i, c.st.vertexId w = some i → clientVertexId c w = (some i, 0)) := by
  constructor
  · have hres : (remoteProtocolOf sv).resolveNamesToRelativePaths [hd] [v] =
        .ok [(AncestorPath.mk hd d, [v])] := by
      unfold remoteProtocolOf serverResolveName
      simp [hsv, hsh, hdist]
    have hchain : fpChain c.st c.st.nextId hid = fpChain sv sv.nextId hid := by
      rw [hnext]
      exact fpChain_congr hedges sv.nextId hid
    unfold clientVertexId
    rw [hmiss, hremote, hheads, hres]
    dsimp only
    rw [List.find?_cons_of_pos _ (by simp)]
    dsimp only
    rw [hch]
    dsimp only
    rw [hchain, get?_of_idxOf? t _ d hdist]
  · intro w i hw
    unfold clientVertexId
    rw [hw]

/-- Witness for C6: the server knows A-B; the client shares the server's id
space and edges but locally knows only the head B by name; looking up A
issues one remote call and yields the server's id 0 for A. -/
theorem lazy_remote_resolution_witness :
    clientVertexId
      (ClientState.mk (DagState.mk [("B", 1)] [(0, []), (1, [0])] 2 []) ["B"]
        (remoteProtocolOf (DagState.mk [("A", 0), ("B", 1)] [(0, []), (1, [0])] 2 [])))
      "A" = (some 0, 1) :=
  (lazy_remote_resolution
    (DagState.mk [("A", 0), ("B", 1)] [(0, []), (1, [0])] 2 [])
    (ClientState.mk (DagState.mk [("B", 1)] [(0, []), (1, [0])] 2 []) ["B"]
      (remoteProtocolOf (DagState.mk [("A", 0), ("B", 1)] [(0, []), (1, [0])] 2 [])))
    "B" "A" 1 0 1 rfl rfl rfl rfl (by decide) (by decide) (by decide) (by decide)
    (by decide)).1

/-! ## C10: heads and parents from a parsed ASCII graph -/

theorem byteSeqLe_total : ∀ a b : List Char, byteSeqLe a b = true ∨ byteSeqLe b a = true := by
  intro a
  induction a with
  | nil => intro b; left; cases b <;> rfl
  | cons x as ih =>
    intro b
    cases b with
    | nil => right; rfl
    | cons y bs =>
      by_cases h1 : x.toNat < y.toNat
      · left
        simp [byteSeqLe, h1]
      · by_cases h2 : y.toNat < x.toNat
        · right
          simp [byteSeqLe, h2]
        · rcases ih bs with h | h
          · left
            simp [byteSeqLe, h1, h2, h]
          · right
            simp [byteSeqLe, h1, h2, h]

theorem byteSeqLe_trans : ∀ a b c : List Char,
    byteSeqLe a b = true → byteSeqLe b c = true → byteSeqLe a c = true := by
  intro a
  induction a with
  | nil => intro b c _ _; cases c <;> rfl
  | cons x as ih =>
    intro b c hab hbc
    cases b with
    | nil => simp [byteSeqLe] at hab
    | cons y bs =>
      cases c with
      | nil => simp [byteSeqLe] at hbc
      | cons z cs =>
        rw [byteSeqLe] at hab hbc ⊢
        by_cases hxy : x.toNat < y.toNat
        · rw [if_pos hxy] at hab
          by_cases hyz : y.toNat < z.toNat
          · rw [if_pos (by omega : x.toNat < z.toNat)]
          · rw [if_neg hyz] at hbc
            by_cases hzy : z.toNat < y.toNat
            · rw [if_pos hzy] at hbc
              exact absurd hbc (by simp)
            · rw [if_pos (by omega : x.toNat < z.toNat)]
        · rw [if_neg hxy] at hab
          by_cases hyx : y.toNat < x.toNat
          · rw [if_pos hyx] at hab
            exact absurd hab (by simp)
          · rw [if_neg hyx] at hab
            by_cases hyz : y.toNat < z.toNat
            · rw [if_pos (by omega : x.toNat < z.toNat)]
            · rw [if_neg hyz] at hbc
              by_cases hzy : z.toNat < y.toNat
              · rw [if_pos hzy] at hbc
                exact absurd hbc (by simp)
              · rw [if_neg hzy] at hbc
                rw [if_neg (by omega : ¬x.toNat < z.toNat),
                  if_neg (by omega : ¬z.toNat < x.toNat)]
                exact ih bs cs hab hbc

/-- C10.  For every parsed ASCII graph, the returned heads are exactly the
keys of the parsed parent map that occur in no vertex's parent list, sorted
in ascending byte order, and the parent map is returned in full alongside
them. -/
theorem heads_from_ascii_spec (parents : List (Vertex × List Vertex)) :
    (∀ v, v ∈ (getHeadsAndParents parents).1 ↔
      (v ∈ parents.map Prod.fst ∧ ∀ p ∈ parents, v ∉ p.2)) ∧
    (getHeadsAndParents parents).1.Sorted (fun a b => vertexLe a b = true) ∧
    (getHeadsAndParents parents).2 = parents := by
  refine ⟨?_, ?_, rfl⟩
  · intro v
    unfold getHeadsAndParents
    simp only [List.mem_insertionSort, List.mem_filter, List.mem_dedup, List.all_eq_true]
    constructor
    · rintro ⟨hmem, hall⟩
      refine ⟨hmem, ?_⟩
      intro p hp
      simpa using hall p hp
    · rintro ⟨hmem, hall⟩
      refine ⟨hmem, ?_⟩
      intro p hp
      simpa using hall p hp
  · haveI : IsTotal Vertex (fun a b => vertexLe a b = true) :=
      ⟨fun a b => byteSeqLe_total a.data b.data⟩
    haveI : IsTrans Vertex (fun a b => vertexLe a b = true) :=
      ⟨fun a b c hab hbc => byteSeqLe_trans a.data b.data c.data hab hbc⟩
    exact List.sorted_insertionSort _ _

/-! ## C8: the segment size does not affect query answers -/

theorem foldl_extendSeg_level (st : DagState) :
    ∀ (l : List Nat) (acc : List Segment × Option Segment),
      (∀ s ∈ acc.1, s.level = 0) → (∀ s, acc.2 = some s → s.level = 0) →
      (∀ s ∈ (l.foldl (extendSeg st) acc).1, s.level = 0) ∧
      (∀ s, (l.foldl (extendSeg st) acc).2 = some s → s.level = 0) := by
  intro l
  induction l with
  | nil => intro acc h1 h2; exact ⟨h1, h2⟩
  | cons i t ih =>
    intro acc h1 h2
    rw [List.foldl_cons]
    refine ih (extendSeg st acc i) ?_ ?_
    · intro s hs
      unfold extendSeg at hs
      cases hacc : acc.2 with
      | none =>
        rw [hacc] at hs
        exact h1 s hs
      | some cur =>
        rw [hacc] at hs
        dsimp only at hs
        by_cases hc : parentIdsOf st i = [cur.high]
        · rw [if_pos hc] at hs
          exact h1 s hs
        · rw [if_neg hc] at hs
          rcases List.mem_append.mp hs with hm | hm
          · exact h1 s hm
          · rw [List.mem_singleton] at hm
            subst hm
            exact h2 s hacc
    · intro s hs
      unfold extendSeg at hs
      cases hacc : acc.2 with
      | none =>
        rw [hacc] at hs
        cases hs
        rfl
      | some cur =>
        rw [hacc] at hs
        dsimp only at hs
        by_cases hc : parentIdsOf st i = [cur.high]
        · rw [if_pos hc] at hs
          cases hs
          exact h2 cur hacc
        · rw [if_neg hc] at hs
          cases hs
          rfl

theorem segments0_level (st : DagState) : ∀ s ∈ segments0 st, s.level = 0 := by
  unfold segments0
  have h := foldl_extendSeg_level st (List.range st.nextId) ([], none)
    (by simp) (by simp)
  cases hres : (List.range st.nextId).foldl (extendSeg st) ([], none) with
  | mk out pending =>
    rw [hres] at h
    cases pending with
    | none =>
      intro s hs
      exact h.1 s hs
    | some s2 =>
      intro s hs
      dsimp only at hs
      rcases List.mem_append.mp hs with hm | hm
      · exact h.1 s hm
      · rw [List.mem_singleton] at hm
        subst hm
        exact h.2 s rfl

theorem foldl_stepMerge_level (size lvl : Nat) :
    ∀ (l : List Segment) (acc : List Segment × Option (Segment × Nat)),
      (∀ s ∈ acc.1, s.level = lvl) →
      (∀ c, acc.2 = some c → c.1.level = lvl) →
      (∀ s ∈ (l.foldl (stepMerge size lvl) acc).1, s.level = lvl) ∧
      (∀ c, (l.foldl (stepMerge size lvl) acc).2 = some c → c.1.level = lvl) := by
  intro l
  induction l with
  | nil => intro acc h1 h2; exact ⟨h1, h2⟩
  | cons sg t ih =>
    intro acc h1 h2
    rw [List.foldl_cons]
    refine ih (stepMerge size lvl acc sg) ?_ ?_
    · intro s hs
      unfold stepMerge at hs
      cases hacc : acc.2 with
      | none =>
        rw [hacc] at hs
        exact h1 s hs
      | some c =>
        rw [hacc] at hs
        dsimp only at hs
        by_cases hc : sg.parents = [c.1.high] ∧ c.2 < size
        · rw [if_pos hc] at hs
          exact h1 s hs
        · rw [if_neg hc] at hs
          rcases List.mem_append.mp hs with hm | hm
          · exact h1 s hm
          · by_cases hemit : size ≤ c.2 ∧ 2 ≤ c.2
            · rw [if_pos hemit, List.mem_singleton] at hm
              subst hm
              exact h2 c hacc
            · rw [if_neg hemit] at hm
              simp at hm
    · intro c2 hs
      unfold stepMerge at hs
      cases hacc : acc.2 with
      | none =>
        rw [hacc] at hs
        cases hs
        rfl
      | some c =>
        rw [hacc] at hs
        dsimp only at hs
        by_cases hc : sg.parents = [c.1.high] ∧ c.2 < size
        · rw [if_pos hc] at hs
          cases hs
          exact h2 c hacc
        · rw [if_neg hc] at hs
          cases hs
          rfl

theorem mergeOnce_level (size lvl : Nat) (segs : List Segment) :
    ∀ s ∈ mergeOnce size lvl segs, s.level = lvl := by
  unfold mergeOnce
  have h := foldl_stepMerge_level size lvl segs ([], none) (by simp) (by simp)
  cases hres : segs.foldl (stepMerge size lvl) ([], none) with
  | mk out pending =>
    rw [hres] at h
    cases pending with
    | none =>
      intro s hs
      exact h.1 s hs
    | some c =>
      intro s hs
      dsimp only at hs
      rcases List.mem_append.mp hs with hm | hm
      · exact h.1 s hm
      · by_cases hemit : size ≤ c.2 ∧ 2 ≤ c.2
        · rw [if_pos hemit, List.mem_singleton] at hm
          subst hm
          exact h.2 c rfl
        · rw [if_neg hemit] at hm
          simp at hm

theorem higherLevels_level (size : Nat) :
    ∀ (fuel lvl : Nat) (segs : List Segment),
      ∀ s ∈ higherLevels size fuel lvl segs, lvl ≤ s.level := by
  intro fuel
  induction fuel with
  | zero =>
    intro lvl segs s hs
    simp [higherLevels] at hs
  | succ f ih =>
    intro lvl segs s hs
    rw [higherLevels] at hs
    by_cases he : (mergeOnce size lvl segs).isEmpty
    · rw [if_pos he] at hs
      simp at hs
    · rw [if_neg he] at hs
      rcases List.mem_append.mp hs with hm | hm
      · exact le_of_eq (mergeOnce_level size lvl segs s hm).symm
      · exact Nat.le_of_succ_le (ih (lvl + 1) _ s hm)

/-- The level-0 part of the built segment set does not depend on the
configured segment size. -/
theorem filter_level0_buildSegments (size : Nat) (st : DagState) :
    (buildSegments size st).filter (fun s => s.level == 0) = segments0 st := by
  unfold buildSegments
  rw [List.filter_append]
  have h1 : (segments0 st).filter (fun s => s.level == 0) = segments0 st :=
    List.filter_eq_self.mpr (fun s hs => by simp [segments0_level st s hs])
  have h2 : (higherLevels size st.nextId 1 (segments0 st)).filter
      (fun s => s.level == 0) = [] := by
    rw [List.filter_eq_nil_iff]
    intro s hs
    have := higherLevels_level size st.nextId 1 _ s hs
    simp only [beq_iff_eq]
    omega
  rw [h1, h2, List.append_nil]

/-- C8.  Two engine instances built from the same heads and parent function
but configured with different segment sizes answer every ancestry query
identically: the level-k to level-(k+1) merge threshold has no observable
effect on query answers. -/
theorem segment_size_invisible (ps : Vertex → List Vertex) (fuel : Nat)
    (heads : List Vertex) (size1 size2 : Nat) (x y : Vertex) :
    (buildEngine ps fuel heads size1).map (fun e => e.isAncestorQ x y) =
    (buildEngine ps fuel heads size2).map (fun e => e.isAncestorQ x y) := by
  unfold buildEngine
  cases h : addHeads ps fuel heads DagState.empty with
  | none => rfl
  | some st =>
    simp only [Option.map_some']
    refine congrArg some ?_
    unfold BuiltEngine.isAncestorQ
    cases st.vertexId x with
    | none => rfl
    | some i =>
      cases st.vertexId y with
      | none => rfl
      | some j =>
        dsimp only
        rw [filter_level0_buildSegments size1 st, filter_level0_buildSegments size2 st]
